import Mathlib

/-!
Shallow embedding of `examples/cylinder2D_openfoam_Re100/cleanrl_ppo_bounded.py`.

Tensors holding one scalar per step are modelled as rational- or real-valued
functions of the step index; the float arithmetic of the script is modelled
exactly over `ℚ` (for the loop/recursion claims) and over `ℝ` (for the
claims involving `tanh`, `exp` and `log`).
-/

namespace CleanrlPPOBounded

/-! ## Substep action interpolation (main-loop subcycle, lines 694-729)

The subcycle loop runs `while subcycle_counter < subcycle_max`; in standard
(non-relative) mode the applied action is
`smoothed_action = prev_action + (1 / (subcycle_max - subcycle_counter)) * (action - prev_action)`,
the environment is stepped, the counter incremented, and then the done flag of
environment index 0 is inspected: if set, `prev_action` becomes `None` and the
loop breaks, otherwise `prev_action` becomes the applied action. -/

/-- One standard-mode smoothing step: line 709-710 of the script,
`action_fraction = 1 / (subcycle_max - subcycle_counter)` and
`smoothed_action = prev_action + action_fraction * (action - prev_action)`. -/
def smoothedStep (M k : ℕ) (p a : ℚ) : ℚ :=
  p + (1 / ((M - k : ℕ) : ℚ)) * (a - p)

/-- The sequence of actions the standard-mode loop applies starting at
subcycle counter `k` with previous action `p`: `genApplied M a k p i` is the
action applied `i` steps later when no done flag interrupts. -/
def genApplied (M : ℕ) (a : ℚ) : ℕ → ℚ → ℕ → ℚ
  | k, p, 0 => smoothedStep M k p a
  | k, p, i + 1 => genApplied M a (k + 1) (smoothedStep M k p a) i

/-- The subcycle while-loop (lines 702-725), standard mode, with fuel
`subcycle_max - subcycle_counter`.  `done j i` is the done flag of parallel
environment `i` reported by the step taken when the counter was `j`; the loop
only inspects `done j 0` (line 721 `if done[0]:`).  Returns the list of
applied actions and the final `prev_action` (`none` models Python `None`). -/
def subcycleLoop (M : ℕ) (a : ℚ) (done : ℕ → ℕ → Bool) :
    ℕ → ℕ → ℚ → List ℚ × Option ℚ
  | 0, _, p => ([], some p)
  | fuel + 1, k, p =>
    let s := smoothedStep M k p a
    if done k 0 then ([s], none)
    else
      let rest := subcycleLoop M a done fuel (k + 1) s
      (s :: rest.1, rest.2)

/-- Run the subcycle loop of one macro-step from counter 0. -/
def runSubcycle (M : ℕ) (a : ℚ) (done : ℕ → ℕ → Bool) (p : ℚ) :
    List ℚ × Option ℚ :=
  subcycleLoop M a done M 0 p

/-- Re-initialization of the previous action at the top of a macro-step
(lines 694-695): `if prev_action is None: prev_action = 0 * action`. -/
def initPrevAction (prev : Option ℚ) (action : ℚ) : ℚ :=
  match prev with
  | none => 0 * action
  | some p => p

/-! ## Advantage / return computation (bootstrap block, lines 732-758)

The backward loops `for t in reversed(range(num_steps))` are embedded through
sequences indexed by the distance `j = T - 1 - t` from the end of the rollout
horizon, which is the order in which the script computes them.  `next_done`
and `next_value` model the `next_done` tensor and
`agent.get_value(next_obs)`. -/

/-- The `nextnonterminal` selector of both branches (lines 740/743 and
752/755): `1 - next_done` at the last step, `1 - dones[t+1]` before it. -/
def nextnonterminal (T : ℕ) (next_done : ℚ) (d : ℕ → ℚ) (t : ℕ) : ℚ :=
  if t = T - 1 then 1 - next_done else 1 - d (t + 1)

/-- The `nextvalues` selector of the GAE branch (lines 741/744):
`next_value` at the last step, `values[t+1]` before it. -/
def nextvalues (T : ℕ) (next_value : ℚ) (v : ℕ → ℚ) (t : ℕ) : ℚ :=
  if t = T - 1 then next_value else v (t + 1)

/-- The TD residual of line 745,
`delta = rewards[t] + gamma * nextvalues * nextnonterminal - values[t]`. -/
def tdDelta (T : ℕ) (γ next_done next_value : ℚ) (r v d : ℕ → ℚ) (t : ℕ) : ℚ :=
  r t + γ * nextvalues T next_value v t * nextnonterminal T next_done d t - v t

/-- The `lastgaelam` accumulator of line 746, indexed by the distance
`j = T - 1 - t` from the end; `lastgaelam` starts at 0, and each step stores
`delta + gamma * gae_lambda * nextnonterminal * lastgaelam`. -/
def lastgaelamSeq (T : ℕ) (γ lam next_done next_value : ℚ)
    (r v d : ℕ → ℚ) : ℕ → ℚ
  | 0 => tdDelta T γ next_done next_value r v d (T - 1)
      + γ * lam * nextnonterminal T next_done d (T - 1) * 0
  | j + 1 => tdDelta T γ next_done next_value r v d (T - 1 - (j + 1))
      + γ * lam * nextnonterminal T next_done d (T - 1 - (j + 1))
          * lastgaelamSeq T γ lam next_done next_value r v d j

/-- `advantages[t]` of the GAE branch. -/
def advantagesGAE (T : ℕ) (γ lam next_done next_value : ℚ)
    (r v d : ℕ → ℚ) (t : ℕ) : ℚ :=
  lastgaelamSeq T γ lam next_done next_value r v d (T - 1 - t)

/-- `returns = advantages + values` of the GAE branch (line 747). -/
def returnsGAE (T : ℕ) (γ lam next_done next_value : ℚ)
    (r v d : ℕ → ℚ) (t : ℕ) : ℚ :=
  advantagesGAE T γ lam next_done next_value r v d t + v t

/-- The non-GAE fallback recursion of lines 749-757, indexed by the distance
from the end: `returns[t] = rewards[t] + gamma * nextnonterminal *
next_return` with `next_return = next_value` at the last step and
`returns[t+1]` before it. -/
def returnsSeq (T : ℕ) (γ next_done next_value : ℚ) (r d : ℕ → ℚ) : ℕ → ℚ
  | 0 => r (T - 1) + γ * nextnonterminal T next_done d (T - 1) * next_value
  | j + 1 => r (T - 1 - (j + 1))
      + γ * nextnonterminal T next_done d (T - 1 - (j + 1))
          * returnsSeq T γ next_done next_value r d j

/-- `returns[t]` of the non-GAE branch. -/
def returnsNonGAE (T : ℕ) (γ next_done next_value : ℚ)
    (r d : ℕ → ℚ) (t : ℕ) : ℚ :=
  returnsSeq T γ next_done next_value r d (T - 1 - t)

/-- Modelled from the spec: the discounted Monte-Carlo return of the rollout,
`sum over m of gamma^m * (product of the non-terminal masks between t and
t+m) * rewards[t+m]`, masked at trajectory boundaries.  This is the spec-side
definition that the two code branches are compared against. -/
def mcReturn (T : ℕ) (γ : ℚ) (r d : ℕ → ℚ) (t : ℕ) : ℚ :=
  ∑ m ∈ Finset.range (T - t),
    γ ^ m * (∏ i ∈ Finset.range m, (1 - d (t + i + 1))) * r (t + m)

/-! ## Clipped value loss (lines 810-820) -/

/-- `torch.clamp(x, lo, hi)`. -/
def clampQ (x lo hi : ℚ) : ℚ := min (max x lo) hi

/-- `v_loss_unclipped = (newvalue - b_returns) ** 2` (line 812). -/
def v_loss_unclipped (newvalue ret : ℚ) : ℚ := (newvalue - ret) ^ 2

/-- `v_clipped = b_values + clamp(newvalue - b_values, -clip_coef, clip_coef)`
(lines 813-817). -/
def v_clipped (oldvalue newvalue clip_coef : ℚ) : ℚ :=
  oldvalue + clampQ (newvalue - oldvalue) (-clip_coef) clip_coef

/-- `v_loss_clipped = (v_clipped - b_returns) ** 2` (line 818). -/
def v_loss_clipped (oldvalue newvalue ret clip_coef : ℚ) : ℚ :=
  (v_clipped oldvalue newvalue clip_coef - ret) ^ 2

/-- `v_loss_max = torch.max(v_loss_unclipped, v_loss_clipped)` (line 819). -/
def v_loss_max (oldvalue newvalue ret clip_coef : ℚ) : ℚ :=
  max (v_loss_unclipped newvalue ret) (v_loss_clipped oldvalue newvalue ret clip_coef)

/-! ## KL-based early stopping of the epoch loop (lines 777, 844-847)

The epoch loop `for epoch in range(args.update_epochs)` runs the minibatch
pass and then, if `args.target_kl is not None` and the last minibatch's
`approx_kl` exceeds it, breaks out.  `kl e` abstracts the `approx_kl` value
observed at the end of epoch `e`; the model counts how many epochs execute
their body. -/

/-- The epoch loop with fuel `E - e`: returns the number of epochs whose body
ran.  `target = none` models `args.target_kl is None`. -/
def epochLoop (target : Option ℚ) (kl : ℕ → ℚ) : ℕ → ℕ → ℕ
  | 0, e => e
  | fuel + 1, e =>
    match target with
    | none => epochLoop target kl fuel (e + 1)
    | some τ => if kl e > τ then e + 1 else epochLoop target kl fuel (e + 1)

/-- Number of executed epochs of one update (loop entered at epoch 0 with
fuel `update_epochs`). -/
def epochsExecuted (E : ℕ) (target : Option ℚ) (kl : ℕ → ℚ) : ℕ :=
  epochLoop target kl E 0

/-! ## Entropy and its proxy (lines 181-184 and 824-829)

`get_action_and_value` returns `entropy = None` when `use_sde` and
`probs.entropy().sum(1)` otherwise; the update loop substitutes
`entropy_loss = -torch.mean(-newlogprob)` when entropy is `None` and uses
`-entropy.mean()` otherwise.  Batched tensors are modelled as lists of
rationals; `perSampleDims` holds the per-sample per-dimension base entropies
of the `Normal` distribution. -/

/-- Mean of a batch tensor. -/
def meanQ (l : List ℚ) : ℚ := l.sum / l.length

/-- The entropy returned by `get_action_and_value` (lines 181-184): `None`
under state-dependent exploration, otherwise the base Normal entropies summed
over action dimensions (`probs.entropy().sum(1)`). -/
def agentEntropy (use_sde : Bool) (perSampleDims : List (List ℚ)) :
    Option (List ℚ) :=
  if use_sde then none else some (perSampleDims.map List.sum)

/-- The entropy loss of the update loop (lines 825-829):
`-torch.mean(-newlogprob)` when the agent returned `None`, else
`-entropy.mean()`. -/
def entropyLoss (entropy : Option (List ℚ)) (newlogprob : List ℚ) : ℚ :=
  match entropy with
  | none => -(meanQ (newlogprob.map (fun x => -x)))
  | some es => -(meanQ es)

/-! ## Bounded-action squash / rescale / unsquash (lines 26-27, 42-53, 166-175)

The float tensors are modelled over `ℝ`.  `EPSILON = 1e-6` and
`LOG_EPSILON = log(EPSILON)` are the module constants of lines 26-27. -/

noncomputable def EPSILON : ℝ := 1e-6

noncomputable def LOG_EPSILON : ℝ := Real.log EPSILON

/-- `torch.clip(x, lo, hi)` over reals. -/
noncomputable def clipR (x lo hi : ℝ) : ℝ := min (max x lo) hi

/-- `torch.atanh`. -/
noncomputable def atanhR (x : ℝ) : ℝ := Real.log ((1 + x) / (1 - x)) / 2

/-- `action_scale = (action_max - action_min) / 2` (line 45), computed from
the raw space bounds before any relative-action compression. -/
noncomputable def action_scale (lo hi : ℝ) : ℝ := (hi - lo) / 2

/-- `action_bias = (action_max + action_min) / 2` (line 46), also computed
before the compression. -/
noncomputable def action_bias (lo hi : ℝ) : ℝ := (hi + lo) / 2

/-- The `action_min` actually stored on the agent: divided by 3 when
`relative_action` (lines 51-53), after scale and bias were derived. -/
noncomputable def effective_min (rel : Bool) (lo : ℝ) : ℝ :=
  if rel then lo / 3 else lo

/-- The `action_max` actually stored on the agent (lines 51-53). -/
noncomputable def effective_max (rel : Bool) (hi : ℝ) : ℝ :=
  if rel then hi / 3 else hi

/-- Forward map of `get_action_and_value` (lines 167-168):
`action = tanh(sample) * action_scale + action_bias`. -/
noncomputable def scaledAction (lo hi s : ℝ) : ℝ :=
  Real.tanh s * action_scale lo hi + action_bias lo hi

/-- Inverse rescale of line 171:
`2 * (action - action_min) / (action_max - action_min) - 1` using the
stored (possibly compressed) bounds. -/
noncomputable def squashedAction (rel : Bool) (lo hi a : ℝ) : ℝ :=
  2 * (a - effective_min rel lo) / (effective_max rel hi - effective_min rel lo) - 1

/-- Lines 172-173: clip the rescaled action to `(-(1 - EPSILON), 1 - EPSILON)`. -/
noncomputable def clippedSquashed (rel : Bool) (lo hi a : ℝ) : ℝ :=
  clipR (squashedAction rel lo hi a) (-(1 - EPSILON)) (1 - EPSILON)

/-- Line 175: `gaussian_action = torch.atanh(squashed_action)`. -/
noncomputable def gaussianAction (rel : Bool) (lo hi a : ℝ) : ℝ :=
  atanhR (clippedSquashed rel lo hi a)

/-- The full squash-rescale-unsquash round trip of one raw sample `s`. -/
noncomputable def roundTrip (rel : Bool) (lo hi s : ℝ) : ℝ :=
  gaussianAction rel lo hi (scaledAction lo hi s)

/-! ## Positivity and boundedness of the Normal scale (lines 157-163, 93-97)

In fixed-exploration mode the learned std parameter is clipped to
`[LOG_EPSILON, -LOG_EPSILON]` and passed through a softplus-based transform
before being handed to `Normal(mean, std)`. -/

/-- The softplus-based transform of line 162 (also 97 and 132):
`0.25 * (log(1 + exp(std)) + 0.2) / (log 2 + 0.2)`. -/
noncomputable def softplusTransform (x : ℝ) : ℝ :=
  0.25 * (Real.log (1 + Real.exp x) + 0.2) / (Real.log 2 + 0.2)

/-- The scale actually passed to the `Normal` distribution (lines 158-163):
clip then transform. -/
noncomputable def normalScale (s : ℝ) : ℝ :=
  softplusTransform (clipR s LOG_EPSILON (-LOG_EPSILON))

/-- Closed form of the standard-mode interpolation: starting at counter `k`
with previous action `p`, the action applied `i` steps later is
`p + ((i+1)/(M-k)) * (a - p)`. -/
theorem genApplied_closed_form (M : ℕ) (a : ℚ) :
    ∀ (i k : ℕ) (p : ℚ), k + i < M →
      genApplied M a k p i = p + (((i : ℚ) + 1) / ((M - k : ℕ) : ℚ)) * (a - p) := by
  intro i
  induction i with
  | zero =>
    intro k p hk
    simp [genApplied, smoothedStep]
  | succ i ih =>
    intro k p hk
    have hk1 : (k + 1) + i < M := by omega
    rw [genApplied, ih (k + 1) _ hk1]
    have hkM : k < M := by omega
    have hk1M : k + 1 < M := by omega
    have hcast : ((M - k : ℕ) : ℚ) = (M : ℚ) - (k : ℚ) := by
      push_cast [Nat.cast_sub hkM.le]; ring
    have hcast1 : ((M - (k + 1) : ℕ) : ℚ) = (M : ℚ) - (k : ℚ) - 1 := by
      push_cast [Nat.cast_sub hk1M.le]; ring
    have hne : (M : ℚ) - (k : ℚ) ≠ 0 := by
      have : (k : ℚ) < (M : ℚ) := by exact_mod_cast hkM
      linarith
    have hne1 : (M : ℚ) - (k : ℚ) - 1 ≠ 0 := by
      have : (k : ℚ) + 1 < (M : ℚ) := by exact_mod_cast hk1M
      linarith
    rw [smoothedStep, hcast, hcast1]
    field_simp
    ring

/-- When environment 0 never reports done, the loop runs through all its fuel:
it applies `genApplied M a k p 0, 1, ...` and leaves `prev_action` set to the
last applied action. -/
theorem subcycleLoop_no_done (M : ℕ) (a : ℚ) (done : ℕ → ℕ → Bool)
    (hdone : ∀ j, done j 0 = false) :
    ∀ (fuel k : ℕ) (p : ℚ),
      subcycleLoop M a done fuel k p =
        ((List.range fuel).map (genApplied M a k p),
         if fuel = 0 then some p else some (genApplied M a k p (fuel - 1))) := by
  intro fuel
  induction fuel with
  | zero => intro k p; simp [subcycleLoop]
  | succ fuel ih =>
    intro k p
    rw [subcycleLoop, hdone k]
    simp only [if_neg (Bool.false_ne_true)]
    rw [ih (k + 1) (smoothedStep M k p a)]
    have hmap : (List.range (fuel + 1)).map (genApplied M a k p) =
        genApplied M a k p 0 ::
          (List.range fuel).map (genApplied M a (k + 1) (smoothedStep M k p a)) := by
      rw [List.range_succ_eq_map, List.map_cons, List.map_map]
      congr 1
    cases fuel with
    | zero => simp [hmap, genApplied]
    | succ fuel => simp only [hmap]; simp [genApplied]

/-- The loop reads only the done flag of environment index 0: two done
schedules that agree at index 0 produce identical runs. -/
theorem subcycleLoop_depends_only_on_env0 (M : ℕ) (a : ℚ)
    (d₁ d₂ : ℕ → ℕ → Bool) (hag : ∀ j, d₁ j 0 = d₂ j 0) :
    ∀ (fuel k : ℕ) (p : ℚ),
      subcycleLoop M a d₁ fuel k p = subcycleLoop M a d₂ fuel k p := by
  intro fuel
  induction fuel with
  | zero => intro k p; rfl
  | succ fuel ih =>
    intro k p
    rw [subcycleLoop, subcycleLoop, hag k]
    by_cases h : d₂ k 0 = true
    · simp [h]
    · simp only [h, if_neg (Bool.false_ne_true), Bool.not_eq_true] at *
      rw [ih]

/-- If the first done flag of environment 0 appears at counter `k₀`, the loop
applies exactly the steps up to and including counter `k₀` and then exits with
`prev_action = none`. -/
theorem subcycleLoop_first_done (M : ℕ) (a : ℚ) (done : ℕ → ℕ → Bool)
    (k₀ : ℕ) (hfirst : ∀ j < k₀, done j 0 = false) (hdone : done k₀ 0 = true) :
    ∀ (fuel k : ℕ) (p : ℚ), k ≤ k₀ → k₀ < k + fuel →
      (subcycleLoop M a done fuel k p).1.length = k₀ + 1 - k ∧
      (subcycleLoop M a done fuel k p).2 = none := by
  intro fuel
  induction fuel with
  | zero => intro k p hk hlt; omega
  | succ fuel ih =>
    intro k p hk hlt
    rw [subcycleLoop]
    by_cases hkk : k = k₀
    · subst hkk
      simp [hdone]
    · have hklt : k < k₀ := by omega
      rw [hfirst k hklt]
      simp only [if_neg (Bool.false_ne_true)]
      have := ih (k + 1) (smoothedStep M k p a) (by omega) (by omega)
      constructor
      · simp only [List.length_cons, this.1]; omega
      · exact this.2

/-- With no done flag, the action the standard-mode subcycle applies at
0-indexed substep `k` is `genApplied M a 0 p k`. -/
theorem runSubcycle_no_done_get (M : ℕ) (a p : ℚ) (k : ℕ) (hk : k < M) :
    (runSubcycle M a (fun _ _ => false) p).1[k]? = some (genApplied M a 0 p k) := by
  rw [runSubcycle, subcycleLoop_no_done M a _ (fun j => rfl) M 0 p]
  simp [List.getElem?_map, List.getElem?_range, hk]

/-- C2: standard (non-relative) mode with `subcycle_max = 50`: the action
applied at 0-indexed substep `k` is `p + ((k+1)/50) * (a - p)`; the final
(50th) substep applies exactly the target `a`; in the spec's example
(previous action 0, target 1) the applied sequence is `(k+1)/50`, ending at
exactly 1 at the 50th substep. -/
theorem substep_standard_interpolation (p a : ℚ) (k : ℕ) (hk : k < 50) :
    (runSubcycle 50 a (fun _ _ => false) p).1[k]? =
        some (p + (((k : ℚ) + 1) / 50) * (a - p))
    ∧ (runSubcycle 50 a (fun _ _ => false) p).1[49]? = some a
    ∧ (runSubcycle 50 1 (fun _ _ => false) 0).1[k]? = some (((k : ℚ) + 1) / 50) := by
  have hclosed : ∀ (q b : ℚ) (j : ℕ), j < 50 →
      genApplied 50 b 0 q j = q + (((j : ℚ) + 1) / 50) * (b - q) := by
    intro q b j hj
    rw [genApplied_closed_form 50 b j 0 q (by omega)]
    norm_num
  refine ⟨?_, ?_, ?_⟩
  · rw [runSubcycle_no_done_get 50 a p k hk, hclosed p a k hk]
  · rw [runSubcycle_no_done_get 50 a p 49 (by omega), hclosed p a 49 (by omega)]
    norm_num
  · rw [runSubcycle_no_done_get 50 1 0 k hk, hclosed 0 1 k hk]
    norm_num

/-- Closed witness for `substep_standard_interpolation` at `p = 2`, `a = 5`,
`k = 0`. -/
theorem substep_standard_interpolation_witness :
    (0 : ℕ) < 50 ∧
    ((runSubcycle 50 5 (fun _ _ => false) 2).1[0]? =
        some (2 + (((0 : ℕ) : ℚ) + 1) / 50 * (5 - 2))
      ∧ (runSubcycle 50 5 (fun _ _ => false) 2).1[49]? = some 5
      ∧ (runSubcycle 50 1 (fun _ _ => false) 0).1[0]? =
          some ((((0 : ℕ) : ℚ) + 1) / 50)) :=
  ⟨by decide, substep_standard_interpolation 2 5 0 (by decide)⟩

/-- C4: if environment 0 first reports done at substep counter `k₀ < M`, the
subcycle loop exits right after that step (exactly `k₀ + 1` actions applied),
`prev_action` becomes `None`, and the next macro-step re-initializes it to
zero (`0 * action`), so interpolation restarts from a zero previous action. -/
theorem substep_done_resets_prev_action (M k₀ : ℕ) (a p b : ℚ)
    (done : ℕ → ℕ → Bool) (hk : k₀ < M)
    (hfirst : ∀ j < k₀, done j 0 = false) (hdone : done k₀ 0 = true) :
    (runSubcycle M a done p).1.length = k₀ + 1
    ∧ (runSubcycle M a done p).2 = none
    ∧ initPrevAction (runSubcycle M a done p).2 b = 0 := by
  have h := subcycleLoop_first_done M a done k₀ hfirst hdone M 0 p
    (Nat.zero_le k₀) (by omega)
  refine ⟨?_, by rw [runSubcycle, h.2], ?_⟩
  · rw [runSubcycle, h.1]; omega
  · rw [runSubcycle, h.2, initPrevAction, zero_mul]

/-- Closed witness for `substep_done_resets_prev_action`: done flag raised at
substep 10 of 50 (counter `k₀ = 9`) exits with 10 applied actions and a reset
previous action. -/
theorem substep_done_resets_prev_action_witness :
    9 < 50 ∧
    ((runSubcycle 50 1 (fun j _ => j == 9) 0).1.length = 9 + 1
      ∧ (runSubcycle 50 1 (fun j _ => j == 9) 0).2 = none
      ∧ initPrevAction (runSubcycle 50 1 (fun j _ => j == 9) 0).2 7 = 0) :=
  ⟨by decide,
    substep_done_resets_prev_action 50 9 1 0 7 (fun j _ => j == 9) (by decide)
      (by intro j hj; simp only [beq_eq_false_iff_ne]; omega) (by decide)⟩

/-- C5: the early-exit check inspects only environment index 0: the whole run
is unchanged when done flags of other environments change, and when
environment 0 never reports done the loop runs all `M` substeps and leaves
`prev_action` set to the last applied action, no matter what the other
environments report. -/
theorem substep_done_check_only_env0 (M : ℕ) (a p : ℚ) (d₁ d₂ : ℕ → ℕ → Bool)
    (hag : ∀ j, d₁ j 0 = d₂ j 0) (hM : 0 < M) (hnd : ∀ j, d₁ j 0 = false) :
    runSubcycle M a d₁ p = runSubcycle M a d₂ p
    ∧ (runSubcycle M a d₁ p).1.length = M
    ∧ (runSubcycle M a d₁ p).2 = some (genApplied M a 0 p (M - 1)) := by
  have hrw : runSubcycle M a d₁ p = runSubcycle M a (fun _ _ => false) p := by
    rw [runSubcycle, runSubcycle,
      subcycleLoop_depends_only_on_env0 M a d₁ (fun _ _ => false)
        (fun j => by rw [hnd j]) M 0 p]
  refine ⟨?_, ?_, ?_⟩
  · rw [runSubcycle, runSubcycle,
      subcycleLoop_depends_only_on_env0 M a d₁ d₂ hag M 0 p]
  · rw [hrw, runSubcycle, subcycleLoop_no_done M a _ (fun j => rfl) M 0 p]
    simp
  · rw [hrw, runSubcycle, subcycleLoop_no_done M a _ (fun j => rfl) M 0 p]
    have : M ≠ 0 := by omega
    simp [this]

/-- Closed witness for `substep_done_check_only_env0`: environment 1 reports
done at every substep, environment 0 never does; the run still completes all
50 substeps. -/
theorem substep_done_check_only_env0_witness :
    (∀ j, (fun _ i => i == 1 : ℕ → ℕ → Bool) j 0 =
        (fun _ _ => false : ℕ → ℕ → Bool) j 0) ∧
    (0 : ℕ) < 50 ∧ (∀ j, (fun _ i => i == 1 : ℕ → ℕ → Bool) j 0 = false) ∧
    (runSubcycle 50 3 (fun _ i => i == 1) 2 =
        runSubcycle 50 3 (fun _ _ => false) 2
      ∧ (runSubcycle 50 3 (fun _ i => i == 1) 2).1.length = 50
      ∧ (runSubcycle 50 3 (fun _ i => i == 1) 2).2 =
          some (genApplied 50 3 0 2 (50 - 1))) :=
  ⟨fun j => rfl, by decide, fun j => rfl,
    substep_done_check_only_env0 50 3 2 (fun _ i => i == 1) (fun _ _ => false)
      (fun j => rfl) (by decide) (fun j => rfl)⟩

/-- With `gae_lambda = 1` the GAE accumulator plus the value estimate equals
the non-GAE return sequence, index by index. -/
theorem lastgaelam_lambda_one (T : ℕ) (γ nd nv : ℚ) (r v d : ℕ → ℚ) :
    ∀ j < T, lastgaelamSeq T γ 1 nd nv r v d j + v (T - 1 - j)
      = returnsSeq T γ nd nv r d j := by
  intro j
  induction j with
  | zero =>
    intro h
    simp only [lastgaelamSeq, returnsSeq, tdDelta, nextvalues, if_pos rfl,
      if_true, Nat.sub_zero]
    ring
  | succ j ih =>
    intro h
    have hj : j < T := by omega
    have h2 : ¬(T - 1 - (j + 1) = T - 1) := by omega
    have h1 : T - 1 - (j + 1) + 1 = T - 1 - j := by omega
    simp only [lastgaelamSeq, returnsSeq, tdDelta, nextvalues, if_neg h2, h1]
    linear_combination γ * nextnonterminal T nd d (T - 1 - (j + 1)) * ih hj

/-- With a zero bootstrap value the non-GAE return sequence is the
discounted Monte-Carlo return. -/
theorem returnsSeq_eq_mcReturn (T : ℕ) (γ nd : ℚ) (r d : ℕ → ℚ) :
    ∀ j < T, returnsSeq T γ nd 0 r d j = mcReturn T γ r d (T - 1 - j) := by
  intro j
  induction j with
  | zero =>
    intro h
    have hT : T - (T - 1) = 1 := by omega
    simp only [returnsSeq, mcReturn, Nat.sub_zero, hT, Finset.sum_range_one,
      Finset.prod_range_zero, pow_zero, one_mul, mul_one, mul_zero, add_zero,
      Nat.add_zero]
  | succ j ih =>
    intro h
    have hj : j < T := by omega
    have h2 : ¬(T - 1 - (j + 1) = T - 1) := by omega
    have h1 : T - 1 - (j + 1) + 1 = T - 1 - j := by omega
    set t := T - 1 - (j + 1) with ht
    have hTt : T - t = j + 1 + 1 := by omega
    have hTt1 : T - (t + 1) = j + 1 := by omega
    rw [returnsSeq, ih hj, ← h1]
    rw [mcReturn, mcReturn, hTt, hTt1]
    have hprod : ∀ m : ℕ,
        γ ^ (m + 1) * (∏ i ∈ Finset.range (m + 1), (1 - d (t + i + 1)))
            * r (t + (m + 1))
          = γ * (1 - d (t + 1)) *
            (γ ^ m * (∏ i ∈ Finset.range m, (1 - d (t + 1 + i + 1)))
              * r (t + 1 + m)) := by
      intro m
      rw [Finset.prod_range_succ']
      have hidx : ∀ i : ℕ, t + (i + 1) + 1 = t + 1 + i + 1 := by
        intro i; omega
      have hidx2 : t + (m + 1) = t + 1 + m := by omega
      simp only [hidx, hidx2, Nat.add_zero]
      ring
    conv_rhs => rw [Finset.sum_range_succ']
    rw [Finset.sum_congr rfl (fun m _ => hprod m), ← Finset.mul_sum]
    have hnn : nextnonterminal T nd d t = 1 - d (t + 1) := by
      rw [nextnonterminal, if_neg h2]
    rw [hnn]
    simp only [pow_zero, Finset.prod_range_zero, one_mul, Nat.add_zero]
    ring

/-- C3: the GAE branch with `gae_lambda = 1` produces returns
(`advantages + values`) identical to the non-GAE fallback branch, and with a
zero bootstrap value both branches produce discounted Monte-Carlo returns. -/
theorem gae_lambda_one_equals_nonGAE (T : ℕ) (γ nd nv : ℚ) (r v d : ℕ → ℚ)
    (t : ℕ) (ht : t < T) :
    returnsGAE T γ 1 nd nv r v d t = returnsNonGAE T γ nd nv r d t
    ∧ returnsNonGAE T γ nd 0 r d t = mcReturn T γ r d t
    ∧ returnsGAE T γ 1 nd 0 r v d t = mcReturn T γ r d t := by
  have hj : T - 1 - t < T := by omega
  have hback : T - 1 - (T - 1 - t) = t := by omega
  have h1 : returnsGAE T γ 1 nd nv r v d t = returnsNonGAE T γ nd nv r d t := by
    rw [returnsGAE, returnsNonGAE, advantagesGAE,
      ← lastgaelam_lambda_one T γ nd nv r v d (T - 1 - t) hj, hback]
  have h2 : returnsNonGAE T γ nd 0 r d t = mcReturn T γ r d t := by
    rw [returnsNonGAE, returnsSeq_eq_mcReturn T γ nd r d (T - 1 - t) hj, hback]
  have h3 : returnsGAE T γ 1 nd 0 r v d t = returnsNonGAE T γ nd 0 r d t := by
    rw [returnsGAE, returnsNonGAE, advantagesGAE,
      ← lastgaelam_lambda_one T γ nd 0 r v d (T - 1 - t) hj, hback]
  exact ⟨h1, h2, by rw [h3, h2]⟩

/-- Closed witness for `gae_lambda_one_equals_nonGAE` at a two-step horizon. -/
theorem gae_lambda_one_equals_nonGAE_witness :
    0 < 2 ∧
    (returnsGAE 2 (9/10) 1 0 3 (fun _ => 1) (fun _ => 2) (fun _ => 0) 0
        = returnsNonGAE 2 (9/10) 0 3 (fun _ => 1) (fun _ => 0) 0
      ∧ returnsNonGAE 2 (9/10) 0 0 (fun _ => 1) (fun _ => 0) 0
          = mcReturn 2 (9/10) (fun _ => 1) (fun _ => 0) 0
      ∧ returnsGAE 2 (9/10) 1 0 0 (fun _ => 1) (fun _ => 2) (fun _ => 0) 0
          = mcReturn 2 (9/10) (fun _ => 1) (fun _ => 0) 0) :=
  ⟨by decide,
    gae_lambda_one_equals_nonGAE 2 (9/10) 0 3 (fun _ => 1) (fun _ => 2)
      (fun _ => 0) 0 (by decide)⟩

/-- C7: the GAE advantages satisfy the backward recurrence whose "next value"
at the final step `t = T - 1` is the critic evaluated on the observation held
outside the buffer (`next_value = critic next_obs`, masked by `next_done`),
while at every earlier step it is `values[t+1]` from the buffer (masked by
`dones[t+1]`). -/
theorem bootstrap_next_value_source {σ : Type} (critic : σ → ℚ) (next_obs : σ)
    (T : ℕ) (γ lam nd : ℚ) (r v d : ℕ → ℚ) (t : ℕ) (ht : t < T) :
    advantagesGAE T γ lam nd (critic next_obs) r v d t
      = tdDelta T γ nd (critic next_obs) r v d t
        + γ * lam * nextnonterminal T nd d t *
          (if t + 1 < T then
            advantagesGAE T γ lam nd (critic next_obs) r v d (t + 1) else 0)
    ∧ (t = T - 1 → nextvalues T (critic next_obs) v t = critic next_obs)
    ∧ (t + 1 < T → nextvalues T (critic next_obs) v t = v (t + 1)) := by
  refine ⟨?_, ?_, ?_⟩
  · by_cases hlast : t + 1 < T
    · have hj : T - 1 - t = (T - 1 - (t + 1)) + 1 := by omega
      have hback : T - 1 - (T - 1 - (t + 1) + 1) = t := by omega
      rw [advantagesGAE, hj, lastgaelamSeq, hback, if_pos hlast]
      rfl
    · have hlast' : t = T - 1 := by omega
      have hj : T - 1 - t = 0 := by omega
      rw [advantagesGAE, hj, lastgaelamSeq, if_neg hlast, hlast']
  · intro hlast
    rw [nextvalues, if_pos hlast]
  · intro hlast
    rw [nextvalues, if_neg (by omega)]

/-- Closed witness for `bootstrap_next_value_source` at `T = 2`, `t = 0` with
a constant critic. -/
theorem bootstrap_next_value_source_witness :
    0 < 2 ∧
    (advantagesGAE 2 (9/10) (19/20) 0 ((fun _ => 5) (0 : ℚ))
        (fun _ => 1) (fun _ => 2) (fun _ => 0) 0
      = tdDelta 2 (9/10) 0 ((fun _ => 5) (0 : ℚ)) (fun _ => 1) (fun _ => 2)
          (fun _ => 0) 0
        + (9/10) * (19/20) * nextnonterminal 2 0 (fun _ => 0) 0 *
          (if 0 + 1 < 2 then
            advantagesGAE 2 (9/10) (19/20) 0 ((fun _ => 5) (0 : ℚ))
              (fun _ => 1) (fun _ => 2) (fun _ => 0) (0 + 1) else 0)
      ∧ (0 = 2 - 1 → nextvalues 2 ((fun _ => 5) (0 : ℚ)) (fun _ => 2) 0
            = (fun _ => 5) (0 : ℚ))
      ∧ (0 + 1 < 2 → nextvalues 2 ((fun _ => 5) (0 : ℚ)) (fun _ => 2) 0
            = (fun _ => 2) (0 + 1))) :=
  ⟨by decide,
    bootstrap_next_value_source (fun _ : ℚ => 5) 0 2 (9/10) (19/20) 0
      (fun _ => 1) (fun _ => 2) (fun _ => 0) 0 (by decide)⟩

/-- C6: the per-element clipped value loss `v_loss_max` never falls below
either of its two branches: it is at least the unclipped squared error and at
least the clipped squared error. -/
theorem v_loss_max_ge_both_branches (oldvalue newvalue ret clip_coef : ℚ) :
    v_loss_unclipped newvalue ret ≤ v_loss_max oldvalue newvalue ret clip_coef
    ∧ v_loss_clipped oldvalue newvalue ret clip_coef
        ≤ v_loss_max oldvalue newvalue ret clip_coef :=
  ⟨le_max_left _ _, le_max_right _ _⟩

theorem epochLoop_none (kl : ℕ → ℚ) :
    ∀ fuel e, epochLoop none kl fuel e = e + fuel := by
  intro fuel
  induction fuel with
  | zero => intro e; rfl
  | succ fuel ih => intro e; rw [epochLoop, ih]; omega

theorem epochLoop_no_violation (kl : ℕ → ℚ) (τ : ℚ) :
    ∀ fuel e, (∀ j, e ≤ j → j < e + fuel → ¬(kl j > τ)) →
      epochLoop (some τ) kl fuel e = e + fuel := by
  intro fuel
  induction fuel with
  | zero => intro e _; rfl
  | succ fuel ih =>
    intro e h
    rw [epochLoop, if_neg (h e le_rfl (by omega)), ih (e + 1)
      (fun j h1 h2 => h j (by omega) (by omega))]
    omega

theorem epochLoop_first_violation (kl : ℕ → ℚ) (τ : ℚ) (k₀ : ℕ)
    (hfirst : ∀ j < k₀, ¬(kl j > τ)) (hviol : kl k₀ > τ) :
    ∀ fuel e, e ≤ k₀ → k₀ < e + fuel →
      epochLoop (some τ) kl fuel e = k₀ + 1 := by
  intro fuel
  induction fuel with
  | zero => intro e h1 h2; omega
  | succ fuel ih =>
    intro e h1 h2
    rw [epochLoop]
    by_cases he : e = k₀
    · subst he; rw [if_pos hviol]
    · rw [if_neg (hfirst e (by omega)), ih (e + 1) (by omega) (by omega)]

/-- C8: with `target_kl = None` no early stopping occurs and all
`update_epochs` epoch bodies run; with `target_kl = some τ`, if no epoch
violates the threshold all bodies also run, and if epoch `k₀ < E` is the
first whose approximate KL exceeds `τ`, exactly `k₀ + 1` epoch bodies run
(the remaining `E - (k₀ + 1)` are skipped). -/
theorem target_kl_early_stopping (E : ℕ) (kl : ℕ → ℚ) (τ : ℚ) (k₀ : ℕ)
    (hfirst : ∀ j < k₀, ¬(kl j > τ)) (hviol : kl k₀ > τ) (hk : k₀ < E) :
    epochsExecuted E none kl = E
    ∧ (∀ kl₂ : ℕ → ℚ, (∀ j < E, ¬(kl₂ j > τ)) →
        epochsExecuted E (some τ) kl₂ = E)
    ∧ epochsExecuted E (some τ) kl = k₀ + 1 := by
  refine ⟨?_, ?_, ?_⟩
  · rw [epochsExecuted, epochLoop_none kl E 0]; omega
  · intro kl₂ h
    rw [epochsExecuted, epochLoop_no_violation kl₂ τ E 0
      (fun j _ h2 => h j (by omega))]
    omega
  · rw [epochsExecuted,
      epochLoop_first_violation kl τ k₀ hfirst hviol E 0 (by omega) (by omega)]

/-- Closed witness for `target_kl_early_stopping`: ten epochs, threshold
`1/100`, first violation at epoch 3 — four epoch bodies run. -/
theorem target_kl_early_stopping_witness :
    (∀ j < 3, ¬((fun e : ℕ => if e = 3 then (1 : ℚ) else 0) j > 1/100))
    ∧ ((fun e : ℕ => if e = 3 then (1 : ℚ) else 0) 3 > 1/100) ∧ 3 < 10
    ∧ (epochsExecuted 10 none (fun e => if e = 3 then (1 : ℚ) else 0) = 10
      ∧ (∀ kl₂ : ℕ → ℚ, (∀ j < 10, ¬(kl₂ j > 1/100)) →
          epochsExecuted 10 (some (1/100)) kl₂ = 10)
      ∧ epochsExecuted 10 (some (1/100))
          (fun e => if e = 3 then (1 : ℚ) else 0) = 3 + 1) :=
  ⟨by intro j hj; simp only [if_neg (show j ≠ 3 by omega)]; norm_num,
    by norm_num, by decide,
    target_kl_early_stopping 10 (fun e => if e = 3 then (1 : ℚ) else 0)
      (1/100) 3
      (by intro j hj; simp only [if_neg (show j ≠ 3 by omega)]; norm_num)
      (by norm_num) (by decide)⟩

theorem sum_map_neg_eq_neg_sum (l : List ℚ) :
    (l.map (fun x => -x)).sum = -l.sum := by
  induction l with
  | nil => simp
  | cons x l ih => simp [ih]; ring

/-- C9: the agent returns an analytic entropy (the per-dimension Normal
entropies summed over dimensions) exactly when `use_sde` is off, returns
`None` exactly when it is on, and in the `None` case the training loop's
proxy `-mean(-newlogprob)` equals the plain mean of the new
log-probabilities, where the analytic branch would have contributed
`-mean(entropy)`. -/
theorem entropy_none_iff_sde (use_sde : Bool) (perSampleDims : List (List ℚ))
    (newlogprob : List ℚ) :
    (agentEntropy use_sde perSampleDims = none ↔ use_sde = true)
    ∧ entropyLoss (agentEntropy true perSampleDims) newlogprob
        = meanQ newlogprob
    ∧ entropyLoss (agentEntropy false perSampleDims) newlogprob
        = -(meanQ (perSampleDims.map List.sum)) := by
  refine ⟨?_, ?_, rfl⟩
  · cases use_sde <;> simp [agentEntropy]
  · show -(meanQ (newlogprob.map (fun x => -x))) = meanQ newlogprob
    rw [meanQ, meanQ, sum_map_neg_eq_neg_sum, List.length_map]
    ring

theorem tanh_eq_exp_two_mul (x : ℝ) :
    Real.tanh x = (Real.exp (2 * x) - 1) / (Real.exp (2 * x) + 1) := by
  have hx : Real.exp x ≠ 0 := (Real.exp_pos x).ne'
  have h2 : Real.exp (2 * x) = Real.exp x * Real.exp x := by
    rw [two_mul, Real.exp_add]
  have hden : Real.exp x + Real.exp (-x) ≠ 0 := by
    have := Real.exp_pos x
    have := Real.exp_pos (-x)
    positivity
  have hden2 : Real.exp (2 * x) + 1 ≠ 0 := by
    have := Real.exp_pos (2 * x)
    positivity
  rw [Real.tanh_eq_sinh_div_cosh, Real.sinh_eq, Real.cosh_eq, Real.exp_neg, h2]
  have h3 : Real.exp x * Real.exp x + 1 ≠ 0 := by positivity
  field_simp

theorem tanh_lt_one_R (x : ℝ) : Real.tanh x < 1 := by
  rw [tanh_eq_exp_two_mul]
  have h := Real.exp_pos (2 * x)
  rw [div_lt_one (by linarith)]
  linarith

theorem neg_one_lt_tanh_R (x : ℝ) : -1 < Real.tanh x := by
  rw [tanh_eq_exp_two_mul]
  have h := Real.exp_pos (2 * x)
  rw [lt_div_iff₀ (by linarith)]
  linarith

/-- `tanh` inverts `atanhR` on `(-1, 1)`. -/
theorem tanh_atanhR (x : ℝ) (h1 : -1 < x) (h2 : x < 1) :
    Real.tanh (atanhR x) = x := by
  have hu : (0 : ℝ) < (1 + x) / (1 - x) := by
    apply div_pos <;> linarith
  have hx1 : (1 : ℝ) - x ≠ 0 := by linarith
  rw [tanh_eq_exp_two_mul, atanhR]
  rw [show 2 * (Real.log ((1 + x) / (1 - x)) / 2)
      = Real.log ((1 + x) / (1 - x)) by ring]
  rw [Real.exp_log hu]
  rw [div_eq_iff (by positivity)]
  field_simp
  ring

theorem clipR_bounds (x lo hi : ℝ) (h : lo ≤ hi) :
    lo ≤ clipR x lo hi ∧ clipR x lo hi ≤ hi :=
  ⟨le_min (le_max_right x lo) h, min_le_right _ _⟩

/-- Clipping to `(-(1 - EPSILON), 1 - EPSILON)` moves a point of `(-1, 1)`
by at most `EPSILON`. -/
theorem clipR_within_epsilon (t : ℝ) (h1 : -1 < t) (h2 : t < 1) :
    |clipR t (-(1 - EPSILON)) (1 - EPSILON) - t| ≤ EPSILON := by
  have hE0 : (0 : ℝ) < EPSILON := by norm_num [EPSILON]
  have hE1 : EPSILON < 1 := by norm_num [EPSILON]
  rw [clipR, abs_le]
  by_cases hlo : t < -(1 - EPSILON)
  · rw [max_eq_right hlo.le, min_eq_left (by linarith)]
    constructor <;> linarith
  · by_cases hhi : 1 - EPSILON < t
    · rw [max_eq_left (by linarith), min_eq_right hhi.le]
      constructor <;> linarith
    · rw [max_eq_left (by linarith), min_eq_left (by linarith)]
      constructor <;> linarith

/-- In standard (non-relative) mode the inverse rescale undoes the forward
scale/bias exactly. -/
theorem squashedAction_std (lo hi s : ℝ) (h : lo < hi) :
    squashedAction false lo hi (scaledAction lo hi s) = Real.tanh s := by
  have hne : hi - lo ≠ 0 := sub_ne_zero.mpr h.ne'
  show 2 * (Real.tanh s * ((hi - lo) / 2) + (hi + lo) / 2 - lo) / (hi - lo) - 1
      = Real.tanh s
  field_simp
  ring

/-- Standard mode: the recovered pre-squash value's `tanh` is within
`EPSILON` of `tanh` of the raw sample. -/
theorem roundTrip_std (lo hi s : ℝ) (h : lo < hi) :
    |Real.tanh (roundTrip false lo hi s) - Real.tanh s| ≤ EPSILON := by
  have hE0 : (0 : ℝ) < EPSILON := by norm_num [EPSILON]
  have hE1 : EPSILON < 1 := by norm_num [EPSILON]
  have ht1 := neg_one_lt_tanh_R s
  have ht2 := tanh_lt_one_R s
  have hb := clipR_bounds (Real.tanh s) (-(1 - EPSILON)) (1 - EPSILON)
    (by linarith)
  have hth : Real.tanh (roundTrip false lo hi s)
      = clipR (Real.tanh s) (-(1 - EPSILON)) (1 - EPSILON) := by
    rw [roundTrip, gaussianAction, clippedSquashed, squashedAction_std lo hi s h]
    exact tanh_atanhR _ (by linarith [hb.1]) (by linarith [hb.2])
  rw [hth]
  exact clipR_within_epsilon (Real.tanh s) ht1 ht2

/-- Relative mode with symmetric bounds `[-m, m]`: because the scale and
bias are derived from the uncompressed bounds while the stored
`action_min`/`action_max` are divided by 3, the inverse rescale produces
`3 * tanh s`, so the recovered `tanh` is the clipped value of `3 * tanh s`. -/
theorem roundTrip_rel_symm (m s : ℝ) (hm : 0 < m) :
    Real.tanh (roundTrip true (-m) m s)
      = clipR (3 * Real.tanh s) (-(1 - EPSILON)) (1 - EPSILON) := by
  have hE0 : (0 : ℝ) < EPSILON := by norm_num [EPSILON]
  have hE1 : EPSILON < 1 := by norm_num [EPSILON]
  have hsq : squashedAction true (-m) m (scaledAction (-m) m s)
      = 3 * Real.tanh s := by
    show 2 * (Real.tanh s * ((m - -m) / 2) + (m + -m) / 2 - -m / 3)
        / (m / 3 - -m / 3) - 1 = 3 * Real.tanh s
    have hm0 : m ≠ 0 := hm.ne'
    field_simp
    ring
  have hb := clipR_bounds (3 * Real.tanh s) (-(1 - EPSILON)) (1 - EPSILON)
    (by linarith)
  rw [roundTrip, gaussianAction, clippedSquashed, hsq]
  exact tanh_atanhR _ (by linarith [hb.1]) (by linarith [hb.2])

/-- C1 (amended): the round trip is idempotent within `EPSILON` in
`relative_action = False` mode; in `relative_action = True` mode it is not —
with symmetric bounds the recovered `tanh` is the clipped value of three
times `tanh` of the raw sample, because the inverse map uses the compressed
bounds while the forward scale/bias derive from the uncompressed ones. -/
theorem squash_rescale_unsquash_roundtrip (lo hi m s : ℝ)
    (h : lo < hi) (hm : 0 < m) :
    |Real.tanh (roundTrip false lo hi s) - Real.tanh s| ≤ EPSILON
    ∧ Real.tanh (roundTrip true (-m) m s)
        = clipR (3 * Real.tanh s) (-(1 - EPSILON)) (1 - EPSILON) :=
  ⟨roundTrip_std lo hi s h, roundTrip_rel_symm m s hm⟩

/-- Closed witness for `squash_rescale_unsquash_roundtrip` at bounds
`[-1, 1]` and raw sample 0. -/
theorem squash_rescale_unsquash_roundtrip_witness :
    (-1 : ℝ) < 1 ∧ (0 : ℝ) < 1 ∧
    (|Real.tanh (roundTrip false (-1) 1 0) - Real.tanh 0| ≤ EPSILON
      ∧ Real.tanh (roundTrip true (-1) 1 0)
          = clipR (3 * Real.tanh 0) (-(1 - EPSILON)) (1 - EPSILON)) :=
  ⟨by norm_num, by norm_num,
    squash_rescale_unsquash_roundtrip (-1) 1 1 0 (by norm_num) (by norm_num)⟩

/-- C1 counterexample: in `relative_action = True` mode with bounds
`[-1, 1]` and raw sample 1, the recovered `tanh` is `1 - EPSILON` while
`tanh 1 < 1 - 2 * EPSILON`, so the round trip misses by more than the clamp
tolerance. -/
theorem roundtrip_not_idempotent_relative_mode :
    ¬ |Real.tanh (roundTrip true (-1) 1 1) - Real.tanh 1| ≤ EPSILON := by
  have h := roundTrip_rel_symm 1 1 one_pos
  have hE2 : Real.exp 2 = Real.exp 1 * Real.exp 1 := by
    rw [← Real.exp_add]; norm_num
  have hlow : (3 : ℝ) < Real.exp 2 := by
    have := Real.add_one_lt_exp (show (2 : ℝ) ≠ 0 by norm_num)
    linarith
  have hhigh : Real.exp 2 < 8 := by
    have h1 := Real.exp_one_lt_d9
    have h2 := Real.exp_pos 1
    nlinarith
  have hp : (0 : ℝ) < Real.exp 2 + 1 := by positivity
  have htanh : Real.tanh 1 = (Real.exp 2 - 1) / (Real.exp 2 + 1) := by
    rw [tanh_eq_exp_two_mul]; norm_num
  have ht_lb : 1 / 3 < Real.tanh 1 := by
    rw [htanh, lt_div_iff₀ hp]; linarith
  have ht_ub : Real.tanh 1 < 1 - 2 * EPSILON := by
    rw [htanh, div_lt_iff₀ hp]
    have hE : EPSILON = 1e-6 := rfl
    rw [hE]; nlinarith
  have hE0 : (0 : ℝ) < EPSILON := by norm_num [EPSILON]
  have hE1 : EPSILON < 1 := by norm_num [EPSILON]
  have hclip : clipR (3 * Real.tanh 1) (-(1 - EPSILON)) (1 - EPSILON)
      = 1 - EPSILON := by
    rw [clipR, max_eq_left (by linarith), min_eq_right (by linarith)]
  rw [h, hclip]
  intro habs
  have := (abs_le.mp habs).2
  linarith

/-- C10: for every value of the learned std parameter, the scale handed to
the `Normal` sampling distribution is strictly positive and bounded above by
the fixed constant `0.25 * (log 2 - LOG_EPSILON + 0.2) / (log 2 + 0.2)`. -/
theorem normalScale_pos_and_bounded (s : ℝ) :
    0 < normalScale s
    ∧ normalScale s
        ≤ 0.25 * (Real.log 2 + -LOG_EPSILON + 0.2) / (Real.log 2 + 0.2) := by
  have hlog2 : (0 : ℝ) < Real.log 2 := Real.log_pos (by norm_num)
  have hU : 0 ≤ -LOG_EPSILON := by
    have hle : Real.log EPSILON ≤ 0 :=
      Real.log_nonpos (by norm_num [EPSILON]) (by norm_num [EPSILON])
    rw [LOG_EPSILON]; linarith
  have hcu : clipR s LOG_EPSILON (-LOG_EPSILON) ≤ -LOG_EPSILON :=
    min_le_right _ _
  constructor
  · have hlpos : 0 < Real.log (1 + Real.exp (clipR s LOG_EPSILON (-LOG_EPSILON))) :=
      Real.log_pos (by linarith [Real.exp_pos (clipR s LOG_EPSILON (-LOG_EPSILON))])
    show 0 < 0.25 * (Real.log (1 + Real.exp (clipR s LOG_EPSILON (-LOG_EPSILON))) + 0.2)
        / (Real.log 2 + 0.2)
    apply div_pos (by linarith) (by linarith)
  · have h1 : Real.log (1 + Real.exp (clipR s LOG_EPSILON (-LOG_EPSILON)))
        ≤ Real.log (1 + Real.exp (-LOG_EPSILON)) :=
      Real.log_le_log (by positivity)
        (by linarith [Real.exp_le_exp.mpr hcu])
    have hexp1 : (1 : ℝ) ≤ Real.exp (-LOG_EPSILON) := by
      rw [show (1 : ℝ) = Real.exp 0 from Real.exp_zero.symm]
      exact Real.exp_le_exp.mpr hU
    have h2 : Real.log (1 + Real.exp (-LOG_EPSILON))
        ≤ Real.log 2 + -LOG_EPSILON := by
      have hstep : Real.log (1 + Real.exp (-LOG_EPSILON))
          ≤ Real.log (2 * Real.exp (-LOG_EPSILON)) :=
        Real.log_le_log (by positivity) (by linarith)
      rw [Real.log_mul (by norm_num) (Real.exp_pos _).ne', Real.log_exp] at hstep
      exact hstep
    show 0.25 * (Real.log (1 + Real.exp (clipR s LOG_EPSILON (-LOG_EPSILON))) + 0.2)
        / (Real.log 2 + 0.2)
        ≤ 0.25 * (Real.log 2 + -LOG_EPSILON + 0.2) / (Real.log 2 + 0.2)
    gcongr
    linarith

end CleanrlPPOBounded
